import Mathlib

/-
Verification development for a Python NFA-to-regex converter built on the
classical state-elimination construction.  The expression tree model, the
transition adapter, the automaton augmentation and the elimination engine
are embedded below as executable Lean definitions that mirror the Python
source line by line; the theorems at the end of the file settle the
specification claims against this embedding.
-/

set_option maxHeartbeats 1000000

/-- Expression tree.  Mirrors the Python class hierarchy: the base class
`Exp` doubles as the atomic variant (a literal symbol, the epsilon marker
`"e"`, the no-edge sentinel `"_"`, or the empty name `""`); `Or` and `Then`
hold lists of subexpressions; the three repetition wrappers hold one. -/
inductive Exp where
  | Base (name : String)
  | Or (exps : List Exp)
  | Then (exps : List Exp)
  | ZeroOrMore (exp : Exp)
  | OneOrMore (exp : Exp)
  | ZeroOrOne (exp : Exp)
  deriving Repr

/-- The Python `.name` attribute: the symbol itself for an atomic
expression, a fixed tag for every composite class. -/
def Exp.name : Exp → String
  | .Base n => n
  | .Or _ => "or"
  | .Then _ => "then"
  | .ZeroOrMore _ => "zero-or-more"
  | .OneOrMore _ => "one-or-more"
  | .ZeroOrOne _ => "zero-or-one"

/-- The Python `.exp_type` attribute. -/
def Exp.exp_type : Exp → String
  | .Base _ => "Exp"
  | .Or _ => "Or"
  | .Then _ => "Then"
  | .ZeroOrMore _ => "ZeroOrMore"
  | .OneOrMore _ => "OneOrMore"
  | .ZeroOrOne _ => "ZeroOrOne"

/-- The Python `.exps` attribute of `Or` and `Then` (the only classes
carrying a list; it is only ever read behind an `exp_type` guard). -/
def Exp.exps : Exp → List Exp
  | .Or es => es
  | .Then es => es
  | _ => []

mutual

/-- The Python `__str__` rendering, the canonical textual form on which the
repository's equality contract is based. -/
def Exp.str : Exp → String
  | .Base n => "Exp(" ++ n ++ ")"
  | .Or es => "Or([" ++ Exp.strList es ++ "])"
  | .Then es => "Then([" ++ Exp.strList es ++ "])"
  | .ZeroOrMore e => "ZeroOrMore(" ++ Exp.str e ++ ")"
  | .OneOrMore e => "OneOrMore(" ++ Exp.str e ++ ")"
  | .ZeroOrOne e => "ZeroOrOne(" ++ Exp.str e ++ ")"

/-- Renders a list of expressions the way Python renders a list (elements
separated by a comma and a space). -/
def Exp.strList : List Exp → String
  | [] => ""
  | [e] => Exp.str e
  | e :: es => Exp.str e ++ ", " ++ Exp.strList es

end

mutual

/-- Boolean structural equality on expressions. -/
def Exp.beq : Exp → Exp → Bool
  | .Base a, .Base b => a == b
  | .Or a, .Or b => Exp.beqList a b
  | .Then a, .Then b => Exp.beqList a b
  | .ZeroOrMore a, .ZeroOrMore b => Exp.beq a b
  | .OneOrMore a, .OneOrMore b => Exp.beq a b
  | .ZeroOrOne a, .ZeroOrOne b => Exp.beq a b
  | _, _ => false

/-- Boolean structural equality on lists of expressions. -/
def Exp.beqList : List Exp → List Exp → Bool
  | [], [] => true
  | a :: as, b :: bs => Exp.beq a b && Exp.beqList as bs
  | _, _ => false

end

instance : BEq Exp := ⟨Exp.beq⟩

/-- One char-by-char pass of Python `str.split(", ")`: `acc` is the
(reversed) token being accumulated, and each non-overlapping occurrence of
the two-character separator comma-space ends a token. -/
def split_comma_space : List Char → List Char → List (List Char)
  | acc, [] => [acc.reverse]
  | acc, ',' :: ' ' :: cs => acc.reverse :: split_comma_space [] cs
  | acc, c :: cs => split_comma_space (c :: acc) cs

/-- Python `lab.split(", ")`. -/
def pysplit (lab : String) : List String :=
  (split_comma_space [] lab.data).map String.mk

/-- The label conversion inlined in `DFA.set_transition_dict`: split the raw
label on comma-space; one part gives a bare `Exp` (a literal), several give
an `Or` of literals in the given order. -/
def parseLabel (lab : String) : Exp :=
  let parts := pysplit lab
  if parts.length == 1 then Exp.Base lab
  else Exp.Or (parts.map Exp.Base)

/-- One row of the adjacency mapping: an insertion-ordered dict from
destination state to expression. -/
abbrev Row := List (String × Exp)

/-- The adjacency mapping: an insertion-ordered dict of rows. -/
abbrev Map := List (String × Row)

/-- A raw transition row: destination state to raw string label. -/
abbrev RawRow := List (String × String)

/-- The raw transition table fed to the adapter. -/
abbrev RawTable := List (String × RawRow)

/-- The row keys (Python `m.keys()`), in insertion order. -/
def rowKeys (m : Map) : List String := m.map (fun kv => kv.1)

/-- The column keys of one row, in insertion order. -/
def colKeys (row : Row) : List String := row.map (fun cv => cv.1)

/-- Python `m[r]` as an option (Python raises `KeyError` on `none`). -/
def lookupRow (m : Map) (r : String) : Option Row :=
  (m.find? (fun kv => kv.1 == r)).map (fun kv => kv.2)

/-- Python `row[c]` as an option. -/
def getInRow (row : Row) (c : String) : Option Exp :=
  (row.find? (fun cv => cv.1 == c)).map (fun cv => cv.2)

/-- Cell read defaulting to the no-edge sentinel; every engine read is of a
key the Python code has just ensured is present, so the default is never
the value actually observed on engine-reachable inputs. -/
def getCellD (m : Map) (r c : String) : Exp :=
  ((lookupRow m r).bind (fun row => getInRow row c)).getD (Exp.Base "_")

/-- Python `c in row.keys()`. -/
def containsKey (row : Row) (c : String) : Bool :=
  row.any (fun cv => cv.1 == c)

/-- Python `row[c] = v`: replaces the value in place when the key exists,
appends a fresh entry at the end otherwise (dict insertion order). -/
def setCell (row : Row) (c : String) (v : Exp) : Row :=
  if containsKey row c then row.map (fun cv => if cv.1 == c then (cv.1, v) else cv)
  else row ++ [(c, v)]

/-- Replaces the row stored under an existing key `r`. -/
def setRow (m : Map) (r : String) (row : Row) : Map :=
  m.map (fun kv => if kv.1 == r then (kv.1, row) else kv)

/-- Python `m[r][c] = v`; the engine only writes rows that exist, so the
`none` branch is unreachable there (Python would raise `KeyError`). -/
def write (m : Map) (r c : String) (v : Exp) : Map :=
  match lookupRow m r with
  | some row => setRow m r (setCell row c v)
  | none => m

/-- The dense all-sentinel mapping `{r: {c: Exp('_') for c in states} for r
in states}`. -/
def initDense (states : List String) : Map :=
  states.map (fun r => (r, states.map (fun c => (c, Exp.Base "_"))))

/-- One cell of the adapter loop in `DFA.set_transition_dict`: a label other
than `"_"` is parsed and stored; an undeclared source is a Python
`KeyError`, while an undeclared destination is silently appended. -/
def applyCell (m : Map) (src : String) (cell : String × String) : Except String Map :=
  if cell.2 != "_" then
    match lookupRow m src with
    | none => Except.error ("KeyError: " ++ src)
    | some row => Except.ok (setRow m src (setCell row cell.1 (parseLabel cell.2)))
  else Except.ok m

/-- `DFA.set_transition_dict`: build the dense sentinel mapping over the
declared states, then overwrite with the parsed raw labels. -/
def set_transition_dict (states : List String) (tf : RawTable) : Except String Map :=
  tf.foldlM (fun m kv => kv.2.foldlM (fun m2 cv => applyCell m2 kv.1 cv) m) (initDense states)

/-- `DFA.get_intermediate_states`. -/
def get_intermediate_states (states : List String) (init_state : String)
    (final_states : List String) : List String :=
  states.filter (fun state => !(init_state :: final_states).contains state)

/-- `DFA.get_predecessors`. -/
def get_predecessors (m : Map) (state : String) : List String :=
  (m.filter (fun kv =>
    containsKey kv.2 state && ((getInRow kv.2 state).getD (Exp.Base "_")).name != "_"
      && kv.1 != state)).map (fun kv => kv.1)

/-- `DFA.get_successors`; the engine only asks about live rows, so the
empty-row default is unreachable there (Python would raise `KeyError`). -/
def get_successors (m : Map) (state : String) : List String :=
  (((lookupRow m state).getD []).filter (fun cv => cv.2.name != "_" && cv.1 != state)).map
    (fun cv => cv.1)

/-- `DFA.get_if_loop`. -/
def get_if_loop (m : Map) (state : String) : Exp :=
  if (getCellD m state state).name != "_" then getCellD m state state else Exp.Base "_"

/-- `DFA.format_zero_or_more`. -/
def format_zero_or_more (loop : Exp) : Exp :=
  if loop.name != "_" && loop.name.length > 0 then Exp.ZeroOrMore loop else loop

/-- `DFA.format_one_or_more`. -/
def format_one_or_more (loop : Exp) : Exp :=
  if loop.name != "_" && loop.name.length > 0 then Exp.OneOrMore loop else loop

/-- `DFA.check_one_more`: the repetition tie-break test, a comparison of the
two `.name` attributes. -/
def check_one_more (pred_to_inter inter_loop : Exp) : Bool :=
  pred_to_inter.name == inter_loop.name

/-- `DFA.format_new_path`: drop blank parts, collapse to epsilon or a single
part, otherwise build a `Then` splicing in the elements of `Then` parts. -/
def format_new_path (path_parts : List Exp) : Exp :=
  let non_blanks := path_parts.filter (fun x =>
    x.name.length != 0 && x.name != "e" && x.name != "_")
  if non_blanks.length == 0 then Exp.Base "e"
  else if non_blanks.length == 1 then non_blanks.headD (Exp.Base "e")
  else Exp.Then (non_blanks.foldl (fun then_list part =>
    if part.exp_type == "Then" then then_list ++ part.exps else then_list ++ [part]) [])

/-- `DFA.format_entry`: merge a new path into the existing entry at (i, j). -/
def format_entry (entry : Exp) (i j : String) (exp : Exp) : Exp :=
  if entry.name == "_" || entry.name.length == 0 then exp
  else if i == j then Exp.Or [Exp.ZeroOrMore entry, exp]
  else Exp.Or [entry, exp]

/-- The body of the innermost loop of `DFA.toregex` for one (predecessor,
successor) pair.  The state is the pair (`self.ds`, `dict_states`); during
the first intermediate state the two Python names alias the same dict
(`aliased = true`), so a write lands in both, while from the second
intermediate state on `self.ds` is a deep copy that the loop body reads but
never writes. -/
def pair_step (aliased : Bool) (inter i j : String) (st : Map × Map) : Map × Map :=
  let sd := st.1
  let m := st.2
  let inter_loop := get_if_loop sd inter
  let pred_loop := format_zero_or_more (get_if_loop sd i)
  let pred_to_inter := getCellD m i inter
  let inter_to_succ := getCellD m inter j
  let new_path :=
    if check_one_more pred_to_inter inter_loop then
      format_new_path [pred_loop, format_one_or_more inter_loop, inter_to_succ]
    else
      format_new_path [pred_loop, pred_to_inter, format_zero_or_more inter_loop, inter_to_succ]
  let m2 := write m i j (format_entry (getCellD m i j) i j new_path)
  (if aliased then m2 else sd, m2)

/-- The dict comprehension of `DFA.toregex` that deletes the eliminated
state's entire row and entire column. -/
def removeState (m : Map) (inter : String) : Map :=
  (m.filter (fun kv => kv.1 != inter)).map (fun kv =>
    (kv.1, kv.2.filter (fun cv => cv.1 != inter)))

/-- One iteration of the outer loop of `DFA.toregex`: process every
(predecessor, successor) pair of `inter`, then delete `inter` and refresh
`self.ds` with a deep copy of the result. -/
def elim_state (aliased : Bool) (st : Map × Map) (inter : String) : Map × Map :=
  let predecessors := get_predecessors st.1 inter
  let successors := get_successors st.1 inter
  let st2 := predecessors.foldl (fun acc i =>
    successors.foldl (fun acc2 j => pair_step aliased inter i j acc2) acc) st
  let m3 := removeState st2.2 inter
  (m3, m3)

/-- Fold step over the intermediate states; the Bool records whether
`self.ds` and `dict_states` still alias each other, which is only the case
until the first deep copy at the end of the first iteration. -/
def elim_step (st : (Map × Map) × Bool) (inter : String) : (Map × Map) × Bool :=
  (elim_state st.2 st.1 inter, false)

/-- The elimination loop of `DFA.toregex` over a list of intermediate
states, returning the final `dict_states`. -/
def elim_run (inters : List String) (ds0 : Map) : Map :=
  ((inters.foldl elim_step ((ds0, ds0), true)).1).2

/-- `DFA.toregex`: eliminate every intermediate state, then return the entry
from the initial state to the first accept state. -/
def toregex (states : List String) (init_state : String) (final_states : List String)
    (ds0 : Map) : Exp :=
  let dict_states := elim_run (get_intermediate_states states init_state final_states) ds0
  getCellD dict_states init_state (final_states.headD "")

/-- Python `row[k] = v` on a raw (string-valued) row. -/
def setRawCell (row : RawRow) (k v : String) : RawRow :=
  if row.any (fun cv => cv.1 == k) then row.map (fun cv => if cv.1 == k then (cv.1, v) else cv)
  else row ++ [(k, v)]

/-- Python `tf[k] = row` on the raw table. -/
def tableSet (tf : RawTable) (k : String) (row : RawRow) : RawTable :=
  if tf.any (fun kv => kv.1 == k) then tf.map (fun kv => if kv.1 == k then (kv.1, row) else kv)
  else tf ++ [(k, row)]

/-- The augmentation performed inline in `main`: add a `START` row with an
epsilon edge to the original initial state, then a `FINAL` column with an
epsilon edge from every original accept state. -/
def augment (init_state : String) (final_states : List String) (tf : RawTable) : RawTable :=
  let start_array := tf.map (fun kv => (kv.1, if kv.1 == init_state then "e" else "_"))
  let tf1 := tf.map (fun kv => (kv.1, setRawCell kv.2 "START" "_"))
  let tf2 := tableSet tf1 "START" (start_array ++ [("FINAL", "_")])
  let tf3 := tf2.map (fun kv =>
    (kv.1, setRawCell kv.2 "FINAL" (if final_states.contains kv.1 then "e" else "_")))
  let final_array := tf2.map (fun kv => (kv.1, "_")) ++ [("FINAL", "_")]
  tableSet tf3 "FINAL" final_array

/-- The full pipeline of `main` up to (and excluding) the external
simplifier: augment, build the adjacency mapping, eliminate.  After
augmentation the working accept list is exactly `["FINAL"]`, so `main`'s
loop over accept states runs exactly once. -/
def pipeline (states : List String) (init_state : String) (final_states : List String)
    (tf : RawTable) : Except String Exp :=
  let tfA := augment init_state final_states tf
  let statesA := states ++ ["START", "FINAL"]
  (set_transition_dict statesA tfA).map (fun ds0 => toregex statesA "START" ["FINAL"] ds0)

/-- Some row keyed `a` carries a non-sentinel entry for `b`: the automaton
described by the adjacency mapping has a direct transition from `a` to `b`. -/
def hasEdge (m : Map) (a b : String) : Bool :=
  m.any (fun kv => kv.1 == a && kv.2.any (fun cv => cv.1 == b && cv.2.name != "_"))

/-- `b` can be reached from `a` through one or more transitions of the
adjacency mapping `m`. -/
inductive Reach (m : Map) : String → String → Prop where
  | edge {a b : String} : hasEdge m a b = true → Reach m a b
  | trans {a b c : String} : Reach m a b → Reach m b c → Reach m a c

/-- The adjacency mapping is dense over the state list `live`: its row keys
are exactly `live` and every row's column keys are exactly `live`, so its
key set is the Cartesian product `live × live`. -/
def dense (m : Map) (live : List String) : Prop :=
  rowKeys m = live ∧ ∀ kv ∈ m, colKeys kv.2 = live

/-- The splice applied by `format_new_path` to each kept part: a `Then` is
replaced by its elements, anything else stands alone. -/
def then_splice : Exp → List Exp
  | .Then es => es
  | x => [x]

/-- One char-by-char pass of a split on the single-character separator
comma, used to state the claimed (spec-worded) adapter behavior. -/
def split_comma_only : List Char → List Char → List (List Char)
  | acc, [] => [acc.reverse]
  | acc, ',' :: cs => acc.reverse :: split_comma_only [] cs
  | acc, c :: cs => split_comma_only (c :: acc) cs

/-- Modelled from the spec: the label conversion as the claim words it
("split on comma"), i.e. splitting on the bare comma character instead of
the comma-space separator the source uses; kept only to compare against
`parseLabel`. -/
def parseLabel_spec (lab : String) : Exp :=
  let parts := (split_comma_only [] lab.data).map String.mk
  if parts.length == 1 then Exp.Base lab
  else Exp.Or (parts.map Exp.Base)

/-- The raw-table lookup of a label for a (source, destination) pair. -/
def rawLookup (tf : RawTable) (src dst : String) : Option String :=
  ((tf.find? (fun kv => kv.1 == src)).map (fun kv => kv.2)).bind
    (fun row => (row.find? (fun cv => cv.1 == dst)).map (fun cv => cv.2))

/-- A three-state automaton whose s→x edge and x→x self-loop are distinct
two-way choices ("a, b" versus "c, d") while x→f carries "k". -/
def exampleC1_table : RawTable :=
  [("s", [("x", "a, b")]), ("x", [("x", "c, d"), ("f", "k")])]

/-- The adjacency mapping the adapter builds from `exampleC1_table`. -/
def exampleC1_map : Map :=
  [("s", [("s", Exp.Base "_"), ("x", Exp.Or [Exp.Base "a", Exp.Base "b"]), ("f", Exp.Base "_")]),
   ("x", [("s", Exp.Base "_"), ("x", Exp.Or [Exp.Base "c", Exp.Base "d"]), ("f", Exp.Base "k")]),
   ("f", [("s", Exp.Base "_"), ("x", Exp.Base "_"), ("f", Exp.Base "_")])]

/-- A three-state automaton whose intermediate state x carries an epsilon
self-loop. -/
def exampleC5_table : RawTable :=
  [("s", [("x", "a")]), ("x", [("x", "e"), ("f", "b")])]

/-- The adjacency mapping the adapter builds from `exampleC5_table`. -/
def exampleC5_map : Map :=
  [("s", [("s", Exp.Base "_"), ("x", Exp.Base "a"), ("f", Exp.Base "_")]),
   ("x", [("s", Exp.Base "_"), ("x", Exp.Base "e"), ("f", Exp.Base "b")]),
   ("f", [("s", Exp.Base "_"), ("x", Exp.Base "_"), ("f", Exp.Base "_")])]

/-- The value the adapter is expected to leave in column `d` after
processing one raw row: the first entry keyed `d` wins, a `"_"` label (or
no entry) leaves the base value, any other label is parsed. -/
def rawCellValue (cells : RawRow) (d : String) (base : Exp) : Exp :=
  match cells.find? (fun cv => cv.1 == d) with
  | none => base
  | some cv => if cv.2 == "_" then base else parseLabel cv.2

/-- The value the adapter is expected to leave at (s, d) after processing a
whole raw table. -/
def tableCellValue (tf : RawTable) (s d : String) (base : Exp) : Exp :=
  match tf.find? (fun kv => kv.1 == s) with
  | none => base
  | some kv => rawCellValue kv.2 d base

theorem Base_ne_of_ne {a b : String} (h : a ≠ b) : Exp.Base a ≠ Exp.Base b := by
  intro he; injection he with h2; exact h h2

theorem str_length_eq_zero (s : String) : s.length = 0 ↔ s = "" := by
  constructor
  · intro h
    cases s with
    | mk data =>
      cases data with
      | nil => rfl
      | cons c cs => simp [String.length] at h
  · intro h; subst h; rfl

theorem name_noedge_iff (e : Exp) : e.name = "_" ↔ e = Exp.Base "_" := by
  cases e <;> simp [Exp.name]

theorem name_empty_iff (e : Exp) : e.name = "" ↔ e = Exp.Base "" := by
  cases e <;> simp [Exp.name]

theorem name_epsilon_iff (e : Exp) : e.name = "e" ↔ e = Exp.Base "e" := by
  cases e <;> simp [Exp.name]

/-- C2: for the automaton with states {n1, n2}, initial state n1, accept
state n2, transition n1→n2 labeled "cds", transition n2→n1 labeled epsilon
and all other transitions absent, the full pipeline (augmentation with
START and FINAL followed by state elimination) returns OneOrMore of the
literal "cds". -/
theorem C2_worked_example :
    pipeline ["n1", "n2"] "n1" ["n2"]
      [("n1", [("n1", "_"), ("n2", "cds")]), ("n2", [("n1", "e"), ("n2", "_")])]
      = Except.ok (Exp.OneOrMore (Exp.Base "cds")) := rfl

/-- C3: merging a new path into slot adjacency[p][s]: a slot holding the
no-edge sentinel or an empty expression is replaced outright by the new
path; otherwise the slot becomes a Choice of the existing entry and the new
path, with the existing entry wrapped in ZeroOrMore exactly when p = s. -/
theorem C3_format_entry_merge (entry : Exp) (i j : String) (exp : Exp) :
    ((entry = Exp.Base "_" ∨ entry = Exp.Base "") → format_entry entry i j exp = exp) ∧
    (entry ≠ Exp.Base "_" → entry ≠ Exp.Base "" →
      format_entry entry i j exp =
        if i = j then Exp.Or [Exp.ZeroOrMore entry, exp] else Exp.Or [entry, exp]) := by
  constructor
  · rintro (rfl | rfl) <;> rfl
  · intro h1 h2
    have hn1 : entry.name ≠ "_" := fun h => h1 ((name_noedge_iff entry).mp h)
    have hn2 : entry.name ≠ "" := fun h => h2 ((name_empty_iff entry).mp h)
    have hlen : entry.name.length ≠ 0 := fun h => hn2 ((str_length_eq_zero _).mp h)
    simp [format_entry, hn1, hlen]

/-- Closed instance of `C3_format_entry_merge` at a non-empty self slot. -/
theorem C3_format_entry_merge_witness :
    format_entry (Exp.Base "u") "p" "p" (Exp.Base "v")
      = Exp.Or [Exp.ZeroOrMore (Exp.Base "u"), Exp.Base "v"] := by
  have h := (C3_format_entry_merge (Exp.Base "u") "p" "p" (Exp.Base "v")).2
    (Base_ne_of_ne (by decide)) (Base_ne_of_ne (by decide))
  simpa using h

/-- C5 is false on the code: `get_if_loop` tests only the no-edge marker,
never epsilon, so an epsilon self-loop is returned as the self-loop
expression (not the NoEdge sentinel) and contributes a ZeroOrMore wrapper
to the rewritten path of the automaton `exampleC5_table`. -/
theorem C5_selfloop_epsilon_counterexample :
    set_transition_dict ["s", "x", "f"] exampleC5_table = Except.ok exampleC5_map ∧
    getCellD exampleC5_map "x" "x" = Exp.Base "e" ∧
    get_if_loop exampleC5_map "x" = Exp.Base "e" ∧
    get_if_loop exampleC5_map "x" ≠ Exp.Base "_" ∧
    toregex ["s", "x", "f"] "s" ["f"] exampleC5_map
      = Exp.Then [Exp.Base "a", Exp.ZeroOrMore (Exp.Base "e"), Exp.Base "b"] :=
  ⟨rfl, rfl, rfl, Base_ne_of_ne (by decide), rfl⟩

/-- C5 (amended): selfLoop(X) is adjacency[X][X] whenever that entry's name
differs from the no-edge marker "_" — including when the entry is the
epsilon expression — and the NoEdge sentinel only when the name is "_"; in
particular an epsilon self-loop does get wrapped in ZeroOrMore (or
OneOrMore) and can contribute such a wrapper to a rewritten path. -/
theorem C5_selfloop_amended (m : Map) (X : String) :
    ((getCellD m X X).name ≠ "_" → get_if_loop m X = getCellD m X X) ∧
    ((getCellD m X X).name = "_" → get_if_loop m X = Exp.Base "_") ∧
    (getCellD m X X = Exp.Base "e" →
      format_zero_or_more (get_if_loop m X) = Exp.ZeroOrMore (Exp.Base "e") ∧
      format_one_or_more (get_if_loop m X) = Exp.OneOrMore (Exp.Base "e")) := by
  refine ⟨fun h => ?_, fun h => ?_, fun h => ?_⟩
  · simp [get_if_loop, h]
  · simp [get_if_loop, h]
  · rw [get_if_loop, h]
    exact ⟨rfl, rfl⟩

/-- Closed instance of `C5_selfloop_amended` at the epsilon self-loop of
`exampleC5_map`. -/
theorem C5_selfloop_amended_witness :
    format_zero_or_more (get_if_loop exampleC5_map "x") = Exp.ZeroOrMore (Exp.Base "e") :=
  ((C5_selfloop_amended exampleC5_map "x").2.2 rfl).1

/-- C1 is false on the code: the tie-break compares only the `.name`
attributes, which for composite expressions are bare variant tags, so two
textually different Or expressions trigger it.  In `exampleC1_table` the
engine therefore treats the path "a, b" into x as subsumed by the self-loop
"c, d": the tie-break fires although the canonical renderings differ, and
the result omits pathToX entirely. -/
theorem C1_tiebreak_counterexample :
    check_one_more (Exp.Or [Exp.Base "a", Exp.Base "b"]) (Exp.Or [Exp.Base "c", Exp.Base "d"])
      = true ∧
    Exp.str (Exp.Or [Exp.Base "a", Exp.Base "b"])
      ≠ Exp.str (Exp.Or [Exp.Base "c", Exp.Base "d"]) ∧
    set_transition_dict ["s", "x", "f"] exampleC1_table = Except.ok exampleC1_map ∧
    getCellD exampleC1_map "s" "x" = Exp.Or [Exp.Base "a", Exp.Base "b"] ∧
    get_if_loop exampleC1_map "x" = Exp.Or [Exp.Base "c", Exp.Base "d"] ∧
    toregex ["s", "x", "f"] "s" ["f"] exampleC1_map
      = Exp.Then [Exp.OneOrMore (Exp.Or [Exp.Base "c", Exp.Base "d"]), Exp.Base "k"] :=
  ⟨rfl, by decide, rfl, rfl, rfl, rfl⟩

/-- C1 (amended): the repetition tie-break fires exactly when the `.name`
attributes of adjacency[p][X] and selfLoop(X) coincide (the symbol itself
for atomic expressions, only the variant tag for composite ones); when it
fires and selfLoop(X) is neither the no-edge marker nor empty-named, the
engine wraps selfLoop(X) as OneOrMore and stores the concatenation
[loopP, OneOrMore(selfLoop(X)), pathFromX], omitting pathToX. -/
theorem C1_tiebreak_amended (sd m : Map) (aliased : Bool) (inter i j : String) :
    (check_one_more (getCellD m i inter) (get_if_loop sd inter) = true ↔
      (getCellD m i inter).name = (get_if_loop sd inter).name) ∧
    ((getCellD m i inter).name = (get_if_loop sd inter).name →
      (get_if_loop sd inter).name ≠ "_" → (get_if_loop sd inter).name ≠ "" →
      (pair_step aliased inter i j (sd, m)).2 =
        write m i j (format_entry (getCellD m i j) i j
          (format_new_path [format_zero_or_more (get_if_loop sd i),
            Exp.OneOrMore (get_if_loop sd inter), getCellD m inter j]))) := by
  constructor
  · simp [check_one_more]
  · intro h1 h2 h3
    have hlen : (get_if_loop sd inter).name.length ≠ 0 :=
      fun h => h3 ((str_length_eq_zero _).mp h)
    have hfire : check_one_more (getCellD m i inter) (get_if_loop sd inter) = true := by
      simp [check_one_more, h1]
    have hwrap : format_one_or_more (get_if_loop sd inter)
        = Exp.OneOrMore (get_if_loop sd inter) := by
      simp [format_one_or_more, h2, Nat.pos_of_ne_zero hlen]
    simp [pair_step, hfire, hwrap]

/-- Closed instance of `C1_tiebreak_amended` at the elimination of x in
`exampleC1_map`. -/
theorem C1_tiebreak_amended_witness :
    (pair_step true "x" "s" "f" (exampleC1_map, exampleC1_map)).2 =
      write exampleC1_map "s" "f" (format_entry (getCellD exampleC1_map "s" "f") "s" "f"
        (format_new_path [format_zero_or_more (get_if_loop exampleC1_map "s"),
          Exp.OneOrMore (get_if_loop exampleC1_map "x"), getCellD exampleC1_map "x" "f"])) :=
  (C1_tiebreak_amended exampleC1_map exampleC1_map true "x" "s" "f").2 rfl
    (by decide) (by decide)

theorem blank_test_eq (x : Exp) :
    (x.name.length != 0 && x.name != "e" && x.name != "_")
      = !(x == Exp.Base "e" || x == Exp.Base "_" || x == Exp.Base "") := by
  cases x with
  | Base n =>
      show (n.length != 0 && n != "e" && n != "_") = !(n == "e" || n == "_" || n == "")
      rw [Bool.eq_iff_iff]
      simp [str_length_eq_zero]
      tauto
  | Or es => rfl
  | Then es => rfl
  | ZeroOrMore e => rfl
  | OneOrMore e => rfl
  | ZeroOrOne e => rfl

theorem foldl_splice_eq_flatMap : ∀ (l : List Exp) (acc : List Exp),
    l.foldl (fun then_list part =>
      if part.exp_type == "Then" then then_list ++ part.exps else then_list ++ [part]) acc
      = acc ++ l.flatMap then_splice := by
  intro l
  induction l with
  | nil => intro acc; simp
  | cons p ps ih =>
      intro acc
      rw [List.foldl_cons, List.flatMap_cons, ih]
      have hp : (if p.exp_type == "Then" then acc ++ p.exps else acc ++ [p])
          = acc ++ then_splice p := by
        cases p <;> simp [then_splice, Exp.exp_type, Exp.exps]
      rw [hp, List.append_assoc]

/-- C4: concatenation drops every part that is the epsilon expression, the
no-edge sentinel, or otherwise empty; zero surviving parts collapse to
epsilon, exactly one is returned unwrapped, and two or more produce a
Sequence in which the elements of any part that is itself a Sequence are
spliced in rather than nested. -/
theorem C4_format_new_path_concat (path_parts : List Exp) (nb : List Exp)
    (hnb : nb = path_parts.filter (fun x =>
      !(x == Exp.Base "e" || x == Exp.Base "_" || x == Exp.Base ""))) :
    (nb = [] → format_new_path path_parts = Exp.Base "e") ∧
    (∀ x, nb = [x] → format_new_path path_parts = x) ∧
    (2 ≤ nb.length → format_new_path path_parts = Exp.Then (nb.flatMap then_splice)) := by
  have hfe : path_parts.filter
      (fun x => x.name.length != 0 && x.name != "e" && x.name != "_") = nb := by
    rw [hnb]
    exact List.filter_congr (fun x _ => blank_test_eq x)
  refine ⟨?_, ?_, ?_⟩
  · intro h
    simp only [format_new_path, hfe, h]
    rfl
  · intro x h
    simp only [format_new_path, hfe, h]
    rfl
  · intro h
    have h0 : (nb.length == 0) = false := by
      simp only [beq_eq_false_iff_ne, ne_eq]
      omega
    have h1 : (nb.length == 1) = false := by
      simp only [beq_eq_false_iff_ne, ne_eq]
      omega
    simp only [format_new_path, hfe, h0, h1, if_false]
    rw [foldl_splice_eq_flatMap, List.nil_append]
    simp

theorem find?_map_keyfix {α : Type} (f : α → α) (p : α → Bool)
    (hp : ∀ a, p (f a) = p a) (l : List α) :
    (l.map f).find? p = (l.find? p).map f := by
  induction l with
  | nil => rfl
  | cons a t ih =>
      rw [List.map_cons]
      cases hpa : p a with
      | true =>
          rw [List.find?_cons_of_pos _ (by rw [hp a]; exact hpa),
            List.find?_cons_of_pos _ hpa]
          rfl
      | false =>
          rw [List.find?_cons_of_neg _ (by rw [hp a, hpa]; simp),
            List.find?_cons_of_neg _ (by rw [hpa]; simp), ih]

theorem containsKey_iff_mem (row : Row) (c : String) :
    containsKey row c = true ↔ c ∈ colKeys row := by
  unfold containsKey colKeys
  rw [List.any_eq_true]
  constructor
  · rintro ⟨cv, hm, hp⟩
    exact List.mem_map.mpr ⟨cv, hm, by simpa using hp⟩
  · intro h
    obtain ⟨cv, hm, he⟩ := List.mem_map.mp h
    exact ⟨cv, hm, by simp [he]⟩

theorem lookupRow_isSome_iff (m : Map) (r : String) :
    (lookupRow m r).isSome ↔ r ∈ rowKeys m := by
  unfold lookupRow rowKeys
  have hms : (Option.map (fun kv => kv.2) (m.find? fun kv => kv.1 == r)).isSome
      = (m.find? fun kv => kv.1 == r).isSome := by
    cases m.find? (fun kv => kv.1 == r) <;> rfl
  rw [hms, List.find?_isSome]
  constructor
  · rintro ⟨kv, hm, hp⟩
    exact List.mem_map.mpr ⟨kv, hm, by simpa using hp⟩
  · intro h
    obtain ⟨kv, hm, he⟩ := List.mem_map.mp h
    exact ⟨kv, hm, by simp [he]⟩

theorem mem_of_lookupRow {m : Map} {r : String} {row : Row}
    (h : lookupRow m r = some row) : ∃ kv, kv ∈ m ∧ kv.1 = r ∧ kv.2 = row := by
  unfold lookupRow at h
  cases hfind : m.find? (fun kv => kv.1 == r) with
  | none => rw [hfind] at h; cases h
  | some kv =>
      rw [hfind] at h
      have hmem := List.mem_of_find?_eq_some hfind
      have hkey := List.find?_some hfind
      refine ⟨kv, hmem, by simpa using hkey, ?_⟩
      simpa using h

theorem lookupRow_setRow (m : Map) (r s : String) (row : Row) :
    lookupRow (setRow m r row) s
      = (lookupRow m s).map (fun oldrow => if s = r then row else oldrow) := by
  unfold lookupRow setRow
  rw [find?_map_keyfix _ _ (fun kv => by by_cases h : kv.1 == r <;> simp [h])]
  cases hf : m.find? (fun kv => kv.1 == s) with
  | none => rfl
  | some kv =>
      have hk : kv.1 = s := by
        have := List.find?_some hf
        simpa using this
      by_cases hsr : s = r
      · subst hsr
        simp [hk]
      · simp [hk, hsr]

theorem getInRow_setCell (row : Row) (c d : String) (v : Exp) :
    getInRow (setCell row c v) d = if d = c then some v else getInRow row d := by
  unfold setCell
  by_cases hc : containsKey row c = true
  · rw [if_pos hc]
    unfold getInRow
    rw [find?_map_keyfix _ _ (fun cv => by by_cases h : cv.1 == c <;> simp [h])]
    by_cases hdc : d = c
    · subst hdc
      have hsome : (row.find? (fun cv => cv.1 == d)).isSome := by
        rw [List.find?_isSome]
        unfold containsKey at hc
        rw [List.any_eq_true] at hc
        exact hc
      obtain ⟨cv, hf⟩ := Option.isSome_iff_exists.mp hsome
      have hk : cv.1 = d := by
        have := List.find?_some hf
        simpa using this
      rw [hf]
      simp [hk]
    · rw [if_neg hdc]
      cases hf : row.find? (fun cv => cv.1 == d) with
      | none => rfl
      | some cv =>
          have hk : cv.1 = d := by
            have := List.find?_some hf
            simpa using this
          simp [hk, hdc]
  · rw [if_neg hc]
    unfold getInRow
    rw [List.find?_append]
    by_cases hdc : d = c
    · subst hdc
      have hnone : row.find? (fun cv => cv.1 == d) = none := by
        rw [List.find?_eq_none]
        intro cv hm hp
        unfold containsKey at hc
        exact hc (List.any_eq_true.mpr ⟨cv, hm, hp⟩)
      rw [hnone]
      simp [List.find?]
    · have hcd : ¬ c = d := fun h => hdc h.symm
      cases hf : row.find? (fun cv => cv.1 == d) with
      | none =>
          have hb : (c == d) = false := by simp [hcd]
          simp [List.find?, hb, hdc]
      | some cv => simp [hdc]

theorem write_of_none {m : Map} {r : String} (h : lookupRow m r = none) (c : String) (v : Exp) :
    write m r c v = m := by
  unfold write
  rw [h]

theorem write_of_some {m : Map} {r : String} {row : Row} (h : lookupRow m r = some row)
    (c : String) (v : Exp) :
    write m r c v = setRow m r (setCell row c v) := by
  unfold write
  rw [h]

theorem getCellD_write_of_some {m : Map} {r : String} {row : Row}
    (hrow : lookupRow m r = some row) (c : String) (v : Exp) (s d : String) :
    getCellD (write m r c v) s d = if s = r ∧ d = c then v else getCellD m s d := by
  rw [write_of_some hrow]
  unfold getCellD
  rw [lookupRow_setRow]
  by_cases hsr : s = r
  · rw [hsr, hrow]
    simp only [Option.map_some', if_true, true_and, Option.some_bind]
    rw [getInRow_setCell]
    by_cases hdc : d = c
    · rw [if_pos hdc, if_pos hdc]
      rfl
    · rw [if_neg hdc, if_neg hdc]
  · have hno : ¬ (s = r ∧ d = c) := by rintro ⟨h1, _⟩; exact hsr h1
    rw [if_neg hno]
    cases hls : lookupRow m s with
    | none => rfl
    | some row2 =>
        simp only [Option.map_some']
        rw [if_neg hsr]

theorem rowKeys_setRow (m : Map) (r : String) (row : Row) :
    rowKeys (setRow m r row) = rowKeys m := by
  unfold rowKeys setRow
  rw [List.map_map]
  apply List.map_congr_left
  intro kv _
  show (if kv.1 == r then (kv.1, row) else kv).1 = kv.1
  split <;> rfl

theorem colKeys_setCell_of_contains {row : Row} {c : String}
    (h : containsKey row c = true) (v : Exp) :
    colKeys (setCell row c v) = colKeys row := by
  unfold setCell
  rw [if_pos h]
  unfold colKeys
  rw [List.map_map]
  apply List.map_congr_left
  intro cv _
  show (if cv.1 == c then (cv.1, v) else cv).1 = cv.1
  split <;> rfl

theorem rowKeys_write (m : Map) (r c : String) (v : Exp) :
    rowKeys (write m r c v) = rowKeys m := by
  unfold write
  cases h : lookupRow m r with
  | none => rfl
  | some row => rw [rowKeys_setRow]

theorem rowKeys_initDense (states : List String) :
    rowKeys (initDense states) = states := by
  unfold rowKeys initDense
  rw [List.map_map]
  have : ((fun kv : String × Row => kv.1)
      ∘ (fun r => (r, states.map fun c => (c, Exp.Base "_")))) = fun r => r := rfl
  rw [this, List.map_id']

theorem getCellD_initDense (states : List String) (r c : String) :
    getCellD (initDense states) r c = Exp.Base "_" := by
  unfold getCellD
  cases h : lookupRow (initDense states) r with
  | none => rfl
  | some row =>
      obtain ⟨kv, hm, hk, hr⟩ := mem_of_lookupRow h
      obtain ⟨st, hst, hkv⟩ := List.mem_map.mp hm
      have hrow : row = states.map (fun c2 => (c2, Exp.Base "_")) := by
        rw [← hr, ← hkv]
      simp only [Option.some_bind]
      cases h2 : getInRow row c with
      | none => rfl
      | some v =>
          unfold getInRow at h2
          cases hf : row.find? (fun cv => cv.1 == c) with
          | none => rw [hf] at h2; cases h2
          | some cv =>
              rw [hf] at h2
              have hv : cv.2 = v := by simpa using h2
              have hmem := List.mem_of_find?_eq_some hf
              rw [hrow] at hmem
              obtain ⟨st2, hst2, hcv⟩ := List.mem_map.mp hmem
              have hvb : v = Exp.Base "_" := by rw [← hv, ← hcv]
              simp [hvb]

theorem except_bind_ok {α β : Type} (a : α) (f : α → Except String β) :
    (Except.ok a >>= f : Except String β) = f a := rfl

theorem row_fold_ok (cells : RawRow) (src : String) :
    ∀ m0 : Map, src ∈ rowKeys m0 →
    ∃ m, cells.foldlM (fun m2 cv => applyCell m2 src cv) m0 = Except.ok m
      ∧ rowKeys m = rowKeys m0 := by
  induction cells with
  | nil => intro m0 _; exact ⟨m0, rfl, rfl⟩
  | cons cv t ih =>
      intro m0 hsrc
      rw [List.foldlM_cons]
      by_cases hlab : (cv.2 != "_") = true
      · have hsome : (lookupRow m0 src).isSome := (lookupRow_isSome_iff m0 src).mpr hsrc
        obtain ⟨row, hrow⟩ := Option.isSome_iff_exists.mp hsome
        have happ : applyCell m0 src cv
            = Except.ok (setRow m0 src (setCell row cv.1 (parseLabel cv.2))) := by
          unfold applyCell
          rw [if_pos hlab, hrow]
        rw [happ, except_bind_ok]
        have hkeys : rowKeys (setRow m0 src (setCell row cv.1 (parseLabel cv.2)))
            = rowKeys m0 := rowKeys_setRow m0 src (setCell row cv.1 (parseLabel cv.2))
        obtain ⟨m, hm, hk⟩ := ih _ (by rw [hkeys]; exact hsrc)
        exact ⟨m, hm, hk.trans hkeys⟩
      · have happ : applyCell m0 src cv = Except.ok m0 := by
          unfold applyCell
          rw [if_neg hlab]
        rw [happ, except_bind_ok]
        exact ih m0 hsrc

theorem std_fold_ok (tf : RawTable) :
    ∀ m0 : Map, (∀ kv ∈ tf, kv.1 ∈ rowKeys m0) →
    ∃ m, tf.foldlM (fun m kv => kv.2.foldlM (fun m2 cv => applyCell m2 kv.1 cv) m) m0
      = Except.ok m ∧ rowKeys m = rowKeys m0 := by
  induction tf with
  | nil => intro m0 _; exact ⟨m0, rfl, rfl⟩
  | cons kv t ih =>
      intro m0 hsrc
      rw [List.foldlM_cons]
      obtain ⟨m1, hm1, hk1⟩ := row_fold_ok kv.2 kv.1 m0 (hsrc kv (by simp))
      rw [hm1, except_bind_ok]
      obtain ⟨m, hm, hk⟩ := ih m1 (fun kv2 h2 => by rw [hk1]; exact hsrc kv2 (by simp [h2]))
      exact ⟨m, hm, hk.trans hk1⟩

/-- C6 is false on the code: there is no MalformedTransition and no
validation at all.  For a raw table naming the undeclared destination "r",
the adapter succeeds and silently appends an extra "r" entry at the end of
the source's row, so the result is not even dense over the declared
states. -/
theorem C6_undeclared_destination_counterexample :
    set_transition_dict ["p", "q"] [("p", [("r", "lbl")])]
      = Except.ok [("p", [("p", Exp.Base "_"), ("q", Exp.Base "_"), ("r", Exp.Base "lbl")]),
          ("q", [("p", Exp.Base "_"), ("q", Exp.Base "_")])] ∧
    (set_transition_dict ["p", "q"] [("p", [("r", "lbl")])]).isOk = true :=
  ⟨rfl, rfl⟩

/-- C6 (amended): the adapter never fails on an undeclared destination:
whenever every source key of the raw table is a declared state the adapter
returns the mapping normally (an undeclared destination is silently
inserted into that source's row); only an undeclared source raises (a
Python KeyError, not a MalformedTransition, which does not exist). -/
theorem C6_adapter_no_validation (states : List String) (tf : RawTable)
    (hsrc : ∀ kv ∈ tf, kv.1 ∈ states) :
    ∃ m, set_transition_dict states tf = Except.ok m ∧ rowKeys m = states := by
  obtain ⟨m, hm, hk⟩ := std_fold_ok tf (initDense states)
    (fun kv h => by rw [rowKeys_initDense]; exact hsrc kv h)
  exact ⟨m, hm, hk.trans (rowKeys_initDense states)⟩

/-- Closed instance of `C6_adapter_no_validation`: a table whose only
destination "zz" is undeclared still converts successfully. -/
theorem C6_adapter_no_validation_witness :
    (set_transition_dict ["a"] [("a", [("zz", "w")])]).isOk = true := by
  obtain ⟨m, hm, -⟩ := C6_adapter_no_validation ["a"] [("a", [("zz", "w")])] (by decide)
  rw [hm]
  rfl

/-- C7 is false on the code as worded: the split is on the two-character
separator comma-space, not on the comma character, so the raw label "a,b"
yields the single literal Exp("a,b") where the claimed behavior (split on
comma) would yield the choice Or([Exp(a), Exp(b)]). -/
theorem C7_comma_split_counterexample :
    parseLabel "a,b" = Exp.Base "a,b" ∧
    parseLabel_spec "a,b" = Exp.Or [Exp.Base "a", Exp.Base "b"] ∧
    parseLabel "a,b" ≠ parseLabel_spec "a,b" ∧
    set_transition_dict ["p", "q"] [("p", [("q", "a,b")])]
      = Except.ok [("p", [("p", Exp.Base "_"), ("q", Exp.Base "a,b")]),
          ("q", [("p", Exp.Base "_"), ("q", Exp.Base "_")])] :=
  ⟨rfl, rfl, fun h => by
    have h2 : Exp.Base "a,b" = Exp.Or [Exp.Base "a", Exp.Base "b"] := h
    exact Exp.noConfusion h2, rfl⟩

/-- Closed instance of `C4_format_new_path_concat`: an epsilon, a sentinel
and a nested Sequence among the parts. -/
theorem C4_format_new_path_concat_witness :
    format_new_path [Exp.Base "e", Exp.Base "a", Exp.Then [Exp.Base "b", Exp.Base "c"],
        Exp.Base "_", Exp.Base "d"]
      = Exp.Then [Exp.Base "a", Exp.Base "b", Exp.Base "c", Exp.Base "d"] :=
  (C4_format_new_path_concat
    [Exp.Base "e", Exp.Base "a", Exp.Then [Exp.Base "b", Exp.Base "c"],
      Exp.Base "_", Exp.Base "d"]
    [Exp.Base "a", Exp.Then [Exp.Base "b", Exp.Base "c"], Exp.Base "d"] rfl).2.2 (by decide)

theorem find?_key_of_mem_nodup {α : Type} {l : List (String × α)} {kv : String × α}
    (hm : kv ∈ l) (hnd : (l.map (fun x => x.1)).Nodup) :
    l.find? (fun x => x.1 == kv.1) = some kv := by
  induction l with
  | nil => cases hm
  | cons a t ih =>
      rw [List.map_cons] at hnd
      have hnd1 := (List.nodup_cons.mp hnd).1
      have hnd2 := (List.nodup_cons.mp hnd).2
      rcases List.mem_cons.mp hm with rfl | hmt
      · rw [List.find?_cons_of_pos _ (by simp)]
      · have ha : (a.1 == kv.1) = false := by
          have hne : a.1 ≠ kv.1 := by
            intro he
            apply hnd1
            rw [he]
            exact List.mem_map.mpr ⟨kv, hmt, rfl⟩
          simp [hne]
        rw [List.find?_cons_of_neg _ (by rw [ha]; simp)]
        exact ih hmt hnd2

theorem lookupRow_of_mem_nodup {m : Map} {kv : String × Row}
    (hm : kv ∈ m) (hnd : (rowKeys m).Nodup) :
    lookupRow m kv.1 = some kv.2 := by
  unfold lookupRow
  rw [find?_key_of_mem_nodup hm hnd]
  rfl

theorem getInRow_of_mem_nodup {row : Row} {cv : String × Exp}
    (hm : cv ∈ row) (hnd : (colKeys row).Nodup) :
    getInRow row cv.1 = some cv.2 := by
  unfold getInRow
  rw [find?_key_of_mem_nodup hm hnd]
  rfl

/-- C10: the transition symbol "e" is treated as epsilon — the adapter
turns it into the epsilon expression, which path concatenation drops and
which can collapse a whole path to Epsilon — and the symbol "_" is treated
as the no-edge sentinel: its raw entry is skipped outright by the adapter,
and a sentinel cell is invisible to predecessor, successor and self-loop
detection. -/
theorem C10_reserved_e_underscore (m : Map) (p X : String)
    (hnr : (rowKeys m).Nodup) (hnc : ∀ kv ∈ m, (colKeys kv.2).Nodup)
    (hcell : getCellD m p X = Exp.Base "_") :
    parseLabel "e" = Exp.Base "e" ∧
    (∀ (m0 : Map) (src dst : String), applyCell m0 src (dst, "_") = Except.ok m0) ∧
    (∀ l r : List Exp, format_new_path (l ++ Exp.Base "e" :: r) = format_new_path (l ++ r)) ∧
    (∀ parts : List Exp, (∀ x ∈ parts, x = Exp.Base "e") →
      format_new_path parts = Exp.Base "e") ∧
    p ∉ get_predecessors m X ∧
    X ∉ get_successors m p ∧
    (p = X → get_if_loop m X = Exp.Base "_") := by
  refine ⟨rfl, fun m0 src dst => rfl, ?_, ?_, ?_, ?_, ?_⟩
  · intro l r
    have hfeq : (l ++ Exp.Base "e" :: r).filter
          (fun x => x.name.length != 0 && x.name != "e" && x.name != "_")
        = (l ++ r).filter
          (fun x => x.name.length != 0 && x.name != "e" && x.name != "_") := by
      rw [List.filter_append _ _, List.filter_append _ _, List.filter_cons]
      have hb : ((Exp.Base "e").name.length != 0 && (Exp.Base "e").name != "e"
          && (Exp.Base "e").name != "_") = false := rfl
      rw [hb]
      simp
    simp only [format_new_path, hfeq]
  · intro parts hall
    have hnil : parts.filter
        (fun x => x.name.length != 0 && x.name != "e" && x.name != "_") = [] := by
      rw [List.filter_eq_nil_iff]
      intro x hx
      rw [hall x hx]
      simp [Exp.name]
    simp only [format_new_path, hnil]
    rfl
  · intro hp
    unfold get_predecessors at hp
    obtain ⟨kv, hkvmem, hkveq⟩ := List.mem_map.mp hp
    rw [List.mem_filter] at hkvmem
    obtain ⟨hkvm, hcond⟩ := hkvmem
    rw [Bool.and_eq_true, Bool.and_eq_true] at hcond
    obtain ⟨⟨hck, hname⟩, hne⟩ := hcond
    have hlk : lookupRow m kv.1 = some kv.2 := lookupRow_of_mem_nodup hkvm hnr
    have hget : getCellD m p X = ((getInRow kv.2 X).getD (Exp.Base "_")) := by
      unfold getCellD
      rw [hkveq] at hlk
      rw [hlk]
      rfl
    rw [hcell] at hget
    rw [← hget] at hname
    simp [Exp.name] at hname
  · intro hs
    unfold get_successors at hs
    obtain ⟨cv, hcvmem, hcveq⟩ := List.mem_map.mp hs
    rw [List.mem_filter] at hcvmem
    obtain ⟨hcvm, hcond⟩ := hcvmem
    rw [Bool.and_eq_true] at hcond
    obtain ⟨hname, hne⟩ := hcond
    cases hlp : lookupRow m p with
    | none => rw [hlp] at hcvm; cases hcvm
    | some row =>
        rw [hlp] at hcvm
        obtain ⟨kv, hkvm, hk1, hk2⟩ := mem_of_lookupRow hlp
        have hndrow : (colKeys row).Nodup := by
          rw [← hk2]
          exact hnc kv hkvm
        have hgi : getInRow row cv.1 = some cv.2 := getInRow_of_mem_nodup hcvm hndrow
        have hget : getCellD m p X = cv.2 := by
          unfold getCellD
          rw [hlp, hcveq] at *
          rw [hlp]
          simp only [Option.some_bind]
          rw [← hcveq, hgi]
          rfl
        rw [hcell] at hget
        rw [← hget] at hname
        simp [Exp.name] at hname
  · intro hpx
    rw [hpx] at hcell
    simp [get_if_loop, hcell, Exp.name]

/-- Closed instance of `C10_reserved_e_underscore` on `exampleC5_map`, whose
(s, f) cell is the sentinel. -/
theorem C10_reserved_e_underscore_witness :
    "s" ∉ get_predecessors exampleC5_map "f" ∧
    format_new_path [Exp.Base "e", Exp.Base "e"] = Exp.Base "e" := by
  have h := C10_reserved_e_underscore exampleC5_map "s" "f" (by decide)
    (by intro kv hkv; simp [exampleC5_map] at hkv; rcases hkv with rfl | rfl | rfl <;> decide) rfl
  refine ⟨h.2.2.2.2.1, h.2.2.2.1 [Exp.Base "e", Exp.Base "e"] ?_⟩
  intro x hx
  simp at hx
  rcases hx with rfl | rfl
  all_goals rfl

theorem bne_true_beq_false {a b : String} (h : (a != b) = true) : (a == b) = false := by
  cases h2 : a == b with
  | false => rfl
  | true => rw [bne, h2] at h; cases h

theorem bne_false_beq_true {a b : String} (h : (a != b) = false) : (a == b) = true := by
  cases h2 : a == b with
  | true => rfl
  | false => rw [bne, h2] at h; cases h

theorem rawCellValue_nil (d : String) (base : Exp) : rawCellValue [] d base = base := rfl

theorem rawCellValue_cons_pos {cv : String × String} {d : String}
    (hcd : (cv.1 == d) = true) (t : RawRow) (base : Exp) :
    rawCellValue (cv :: t) d base = if cv.2 == "_" then base else parseLabel cv.2 := by
  unfold rawCellValue
  rw [@List.find?_cons_of_pos _ (fun cv2 => cv2.1 == d) cv t hcd]

theorem rawCellValue_cons_neg {cv : String × String} {d : String}
    (hcd : (cv.1 == d) = false) (t : RawRow) (base : Exp) :
    rawCellValue (cv :: t) d base = rawCellValue t d base := by
  unfold rawCellValue
  rw [@List.find?_cons_of_neg _ (fun cv2 => cv2.1 == d) cv t (by simp [hcd])]

theorem rawCellValue_none {cells : RawRow} {d : String}
    (h : cells.find? (fun cv => cv.1 == d) = none) (base : Exp) :
    rawCellValue cells d base = base := by
  unfold rawCellValue
  rw [h]

theorem tableCellValue_cons_pos {kv : String × RawRow} {s : String}
    (hks : (kv.1 == s) = true) (t : RawTable) (d : String) (base : Exp) :
    tableCellValue (kv :: t) s d base = rawCellValue kv.2 d base := by
  unfold tableCellValue
  rw [@List.find?_cons_of_pos _ (fun kv2 => kv2.1 == s) kv t hks]

theorem tableCellValue_cons_neg {kv : String × RawRow} {s : String}
    (hks : (kv.1 == s) = false) (t : RawTable) (d : String) (base : Exp) :
    tableCellValue (kv :: t) s d base = tableCellValue t s d base := by
  unfold tableCellValue
  rw [@List.find?_cons_of_neg _ (fun kv2 => kv2.1 == s) kv t (by simp [hks])]

theorem row_fold_cell (cells : RawRow) (src : String) :
    ∀ m0 : Map, src ∈ rowKeys m0 → (cells.map (fun cv => cv.1)).Nodup →
    ∃ m, cells.foldlM (fun m2 cv => applyCell m2 src cv) m0 = Except.ok m
      ∧ rowKeys m = rowKeys m0
      ∧ ∀ s d, getCellD m s d =
          if s = src then rawCellValue cells d (getCellD m0 s d) else getCellD m0 s d := by
  induction cells with
  | nil =>
      intro m0 _ _
      refine ⟨m0, rfl, rfl, fun s d => ?_⟩
      rw [rawCellValue_nil]
      by_cases h : s = src
      · rw [if_pos h]
      · rw [if_neg h]
  | cons cv t ih =>
      intro m0 hsrc hnd
      rw [List.map_cons, List.nodup_cons] at hnd
      obtain ⟨hhead, htail⟩ := hnd
      rw [List.foldlM_cons]
      by_cases hlab : (cv.2 != "_") = true
      · have hsome : (lookupRow m0 src).isSome := (lookupRow_isSome_iff m0 src).mpr hsrc
        obtain ⟨row, hrow⟩ := Option.isSome_iff_exists.mp hsome
        have happ : applyCell m0 src cv
            = Except.ok (write m0 src cv.1 (parseLabel cv.2)) := by
          rw [write_of_some hrow]
          unfold applyCell
          rw [if_pos hlab, hrow]
        rw [happ, except_bind_ok]
        have hk1 : rowKeys (write m0 src cv.1 (parseLabel cv.2)) = rowKeys m0 :=
          rowKeys_write m0 src cv.1 _
        have hcell1 : ∀ s d, getCellD (write m0 src cv.1 (parseLabel cv.2)) s d
            = if s = src ∧ d = cv.1 then parseLabel cv.2 else getCellD m0 s d :=
          fun s d => getCellD_write_of_some hrow cv.1 (parseLabel cv.2) s d
        obtain ⟨m, hm, hk, hcells⟩ := ih _ (by rw [hk1]; exact hsrc) htail
        refine ⟨m, hm, hk.trans hk1, fun s d => ?_⟩
        rw [hcells s d]
        by_cases hs : s = src
        · rw [if_pos hs, if_pos hs]
          cases hcd : (cv.1 == d) with
          | true =>
              have hdc : d = cv.1 := by
                have h0 : cv.1 = d := by simpa using hcd
                exact h0.symm
              have htf : t.find? (fun cv2 => cv2.1 == d) = none := by
                rw [List.find?_eq_none]
                intro cv2 hm2 hp2
                apply hhead
                have h2 : cv2.1 = d := by simpa using hp2
                have h3 : cv.1 = cv2.1 := by rw [h2, ← hdc]
                rw [h3]
                exact List.mem_map.mpr ⟨cv2, hm2, rfl⟩
              rw [rawCellValue_none htf, rawCellValue_cons_pos hcd]
              have hlb : (cv.2 == "_") = false := bne_true_beq_false hlab
              rw [hlb, if_neg (by simp), hcell1 s d, if_pos ⟨hs, hdc⟩]
          | false =>
              have hdc : ¬ d = cv.1 := fun he => by rw [he] at hcd; simp at hcd
              rw [rawCellValue_cons_neg hcd, hcell1 s d,
                if_neg (by rintro ⟨_, h2⟩; exact hdc h2)]
        · rw [if_neg hs, if_neg hs, hcell1 s d, if_neg (by rintro ⟨h1, _⟩; exact hs h1)]
      · have happ : applyCell m0 src cv = Except.ok m0 := by
          unfold applyCell
          rw [if_neg hlab]
        rw [happ, except_bind_ok]
        obtain ⟨m, hm, hk, hcells⟩ := ih m0 hsrc htail
        refine ⟨m, hm, hk, fun s d => ?_⟩
        rw [hcells s d]
        by_cases hs : s = src
        · rw [if_pos hs, if_pos hs]
          cases hcd : (cv.1 == d) with
          | true =>
              have hdc : d = cv.1 := by
                have h0 : cv.1 = d := by simpa using hcd
                exact h0.symm
              have htf : t.find? (fun cv2 => cv2.1 == d) = none := by
                rw [List.find?_eq_none]
                intro cv2 hm2 hp2
                apply hhead
                have h2 : cv2.1 = d := by simpa using hp2
                have h3 : cv.1 = cv2.1 := by rw [h2, ← hdc]
                rw [h3]
                exact List.mem_map.mpr ⟨cv2, hm2, rfl⟩
              rw [rawCellValue_none htf, rawCellValue_cons_pos hcd]
              have hlb : (cv.2 == "_") = true := by
                cases h2 : cv.2 != "_" with
                | false => exact bne_false_beq_true h2
                | true => exact absurd h2 hlab
              rw [hlb, if_pos rfl]
          | false => rw [rawCellValue_cons_neg hcd]
        · rw [if_neg hs, if_neg hs]

theorem std_fold_cell (tf : RawTable) :
    ∀ m0 : Map, (∀ kv ∈ tf, kv.1 ∈ rowKeys m0) → (tf.map (fun kv => kv.1)).Nodup →
      (∀ kv ∈ tf, (kv.2.map (fun cv => cv.1)).Nodup) →
    ∃ m, tf.foldlM (fun m kv => kv.2.foldlM (fun m2 cv => applyCell m2 kv.1 cv) m) m0
      = Except.ok m ∧ rowKeys m = rowKeys m0 ∧
      ∀ s d, getCellD m s d = tableCellValue tf s d (getCellD m0 s d) := by
  induction tf with
  | nil =>
      intro m0 _ _ _
      exact ⟨m0, rfl, rfl, fun s d => rfl⟩
  | cons kv t ih =>
      intro m0 hsrc hnd hrows
      rw [List.map_cons, List.nodup_cons] at hnd
      obtain ⟨hhead, htail⟩ := hnd
      rw [List.foldlM_cons]
      obtain ⟨m1, hm1, hk1, hcell1⟩ := row_fold_cell kv.2 kv.1 m0 (hsrc kv (by simp))
        (hrows kv (by simp))
      rw [hm1, except_bind_ok]
      obtain ⟨m, hm, hk, hcells⟩ := ih m1
        (fun kv2 h2 => by rw [hk1]; exact hsrc kv2 (by simp [h2]))
        htail (fun kv2 h2 => hrows kv2 (by simp [h2]))
      refine ⟨m, hm, hk.trans hk1, fun s d => ?_⟩
      rw [hcells s d]
      by_cases hs : s = kv.1
      · have hks : (kv.1 == s) = true := by simp [hs]
        rw [tableCellValue_cons_pos hks]
        have htf : t.find? (fun kv2 => kv2.1 == s) = none := by
          rw [List.find?_eq_none]
          intro kv2 hm2 hp2
          apply hhead
          have h2 : kv2.1 = s := by simpa using hp2
          have h3 : kv.1 = kv2.1 := by rw [h2, ← hs]
          rw [h3]
          exact List.mem_map.mpr ⟨kv2, hm2, rfl⟩
        have hLt : tableCellValue t s d (getCellD m1 s d) = getCellD m1 s d := by
          unfold tableCellValue
          rw [htf]
        rw [hLt, hcell1 s d, if_pos hs]
      · have hks : (kv.1 == s) = false := by
          cases h2 : kv.1 == s with
          | false => rfl
          | true => exact absurd (by simpa using h2 : kv.1 = s).symm hs
        rw [tableCellValue_cons_neg hks, hcell1 s d, if_neg hs]

theorem tableCellValue_eq_rawLookup (tf : RawTable) (s d : String) (base : Exp) :
    tableCellValue tf s d base =
      match rawLookup tf s d with
      | none => base
      | some lab => if lab == "_" then base else parseLabel lab := by
  unfold tableCellValue rawLookup rawCellValue
  cases hf : tf.find? (fun kv => kv.1 == s) with
  | none => rfl
  | some kv =>
      simp only [Option.map_some', Option.some_bind]
      cases hf2 : kv.2.find? (fun cv => cv.1 == d) with
      | none => rfl
      | some cv => rfl

/-- C7 (amended): for every declared (source, destination) pair of a
well-formed table, the adapter looks up the raw label — an absent entry or
a "_" entry leaves the no-edge sentinel — splits it on the TWO-CHARACTER
separator comma-space, and maps a single resulting token to a literal and
multiple tokens to a Choice of literals in the given order. -/
theorem C7_adapter_behavior (states : List String) (tf : RawTable) (src dst : String)
    (hsrc : ∀ kv ∈ tf, kv.1 ∈ states)
    (hnd : (tf.map (fun kv => kv.1)).Nodup)
    (hrows : ∀ kv ∈ tf, (kv.2.map (fun cv => cv.1)).Nodup)
    (m : Map) (hm : set_transition_dict states tf = Except.ok m) :
    getCellD m src dst =
      (match rawLookup tf src dst with
       | none => Exp.Base "_"
       | some lab => if lab == "_" then Exp.Base "_" else parseLabel lab) ∧
    (∀ lab : String, (pysplit lab).length = 1 → parseLabel lab = Exp.Base lab) ∧
    (∀ lab : String, (pysplit lab).length ≠ 1 →
      parseLabel lab = Exp.Or ((pysplit lab).map Exp.Base)) := by
  refine ⟨?_, fun lab h1 => ?_, fun lab h1 => ?_⟩
  · obtain ⟨m2, hm2, hk2, hcell2⟩ := std_fold_cell tf (initDense states)
      (fun kv h => by rw [rowKeys_initDense]; exact hsrc kv h) hnd hrows
    have hmeq : m2 = m := by
      unfold set_transition_dict at hm
      exact Except.ok.inj (hm2.symm.trans hm)
    subst hmeq
    rw [hcell2 src dst, getCellD_initDense]
    exact tableCellValue_eq_rawLookup tf src dst (Exp.Base "_")
  · unfold parseLabel
    have hb : ((pysplit lab).length == 1) = true := by simp [h1]
    rw [if_pos hb]
  · unfold parseLabel
    have hb : ((pysplit lab).length == 1) = false := by simp [h1]
    rw [if_neg (by rw [hb]; simp)]

/-- Closed instance of `C7_adapter_behavior`: the label "g, h" becomes the
choice Or([Exp(g), Exp(h)]) at the declared pair (u, v). -/
theorem C7_adapter_behavior_witness :
    getCellD [("u", [("u", Exp.Base "_"), ("v", Exp.Or [Exp.Base "g", Exp.Base "h"])]),
        ("v", [("u", Exp.Base "_"), ("v", Exp.Base "_")])] "u" "v"
      = Exp.Or [Exp.Base "g", Exp.Base "h"] := by
  have h := C7_adapter_behavior ["u", "v"] [("u", [("v", "g, h")])] "u" "v"
    (by intro kv hkv; simp at hkv; subst hkv; decide)
    (by decide)
    (by intro kv hkv; simp at hkv; subst hkv; decide)
    [("u", [("u", Exp.Base "_"), ("v", Exp.Or [Exp.Base "g", Exp.Base "h"])]),
      ("v", [("u", Exp.Base "_"), ("v", Exp.Base "_")])] rfl
  exact h.1

theorem except_bind_error {α β : Type} (e : String) (f : α → Except String β) :
    (Except.error e >>= f : Except String β) = Except.error e := rfl

theorem dense_write {m : Map} {live : List String} (hd : dense m live) (r : String)
    {c : String} (hc : c ∈ live) (v : Exp) : dense (write m r c v) live := by
  unfold write
  cases hrow : lookupRow m r with
  | none => exact hd
  | some row =>
      obtain ⟨kv, hkvm, hk1, hk2⟩ := mem_of_lookupRow hrow
      have hck : colKeys row = live := by rw [← hk2]; exact hd.2 kv hkvm
      have hcont : containsKey row c = true :=
        (containsKey_iff_mem row c).mpr (by rw [hck]; exact hc)
      constructor
      · rw [rowKeys_setRow]; exact hd.1
      · intro kv2 hm2
        unfold setRow at hm2
        obtain ⟨kv3, hm3, hf3⟩ := List.mem_map.mp hm2
        by_cases h3 : (kv3.1 == r) = true
        · rw [← hf3, if_pos h3]
          show colKeys (setCell row c v) = live
          rw [colKeys_setCell_of_contains hcont]
          exact hck
        · rw [← hf3, if_neg h3]
          exact hd.2 kv3 hm3

theorem dense_initDense (states : List String) : dense (initDense states) states := by
  constructor
  · exact rowKeys_initDense states
  · intro kv hm
    unfold initDense at hm
    obtain ⟨st, hst, hkv⟩ := List.mem_map.mp hm
    rw [← hkv]
    show colKeys (states.map fun c => (c, Exp.Base "_")) = states
    unfold colKeys
    rw [List.map_map]
    have hcomp : ((fun cv : String × Exp => cv.1) ∘ fun c => (c, Exp.Base "_"))
        = fun c => c := rfl
    rw [hcomp, List.map_id']

theorem row_fold_dense (cells : RawRow) (src : String) (live : List String) :
    ∀ m0 : Map, dense m0 live → (∀ cv ∈ cells, cv.1 ∈ live) →
    ∀ {m : Map}, cells.foldlM (fun m2 cv => applyCell m2 src cv) m0 = Except.ok m →
      dense m live := by
  induction cells with
  | nil =>
      intro m0 hd _ m hm
      exact (Except.ok.inj hm) ▸ hd
  | cons cv t ih =>
      intro m0 hd hdst m hm
      rw [List.foldlM_cons] at hm
      cases happ : applyCell m0 src cv with
      | error e => rw [happ, except_bind_error] at hm; cases hm
      | ok m1 =>
          rw [happ, except_bind_ok] at hm
          have hd1 : dense m1 live := by
            unfold applyCell at happ
            by_cases hlab : (cv.2 != "_") = true
            · rw [if_pos hlab] at happ
              cases hrow : lookupRow m0 src with
              | none => rw [hrow] at happ; cases happ
              | some row =>
                  rw [hrow] at happ
                  have hm1 : m1 = write m0 src cv.1 (parseLabel cv.2) := by
                    rw [write_of_some hrow]
                    exact (Except.ok.inj happ).symm
                  rw [hm1]
                  exact dense_write hd src (hdst cv (by simp)) _
            · rw [if_neg hlab] at happ
              exact (Except.ok.inj happ) ▸ hd
          exact ih m1 hd1 (fun cv2 h2 => hdst cv2 (by simp [h2])) hm

theorem std_fold_dense (tf : RawTable) (live : List String) :
    ∀ m0 : Map, dense m0 live → (∀ kv ∈ tf, ∀ cv ∈ kv.2, cv.1 ∈ live) →
    ∀ {m : Map}, tf.foldlM (fun m kv => kv.2.foldlM (fun m2 cv => applyCell m2 kv.1 cv) m) m0
      = Except.ok m → dense m live := by
  induction tf with
  | nil =>
      intro m0 hd _ m hm
      exact (Except.ok.inj hm) ▸ hd
  | cons kv t ih =>
      intro m0 hd hdst m hm
      rw [List.foldlM_cons] at hm
      cases hrf : kv.2.foldlM (fun m2 cv => applyCell m2 kv.1 cv) m0 with
      | error e => rw [hrf, except_bind_error] at hm; cases hm
      | ok m1 =>
          rw [hrf, except_bind_ok] at hm
          have hd1 : dense m1 live :=
            row_fold_dense kv.2 kv.1 live m0 hd (fun cv h => hdst kv (by simp) cv h) hrf
          exact ih m1 hd1 (fun kv2 h2 cv h3 => hdst kv2 (by simp [h2]) cv h3) hm

theorem dense_std (states : List String) (tf : RawTable)
    (hdst : ∀ kv ∈ tf, ∀ cv ∈ kv.2, cv.1 ∈ states)
    {m : Map} (hm : set_transition_dict states tf = Except.ok m) :
    dense m states := by
  unfold set_transition_dict at hm
  exact std_fold_dense tf states (initDense states) (dense_initDense states) hdst hm

theorem map_fst_filter_key {α : Type} (l : List (String × α)) (p : String → Bool) :
    (l.filter (fun kv => p kv.1)).map (fun kv => kv.1) = (l.map (fun kv => kv.1)).filter p := by
  induction l with
  | nil => rfl
  | cons a t ih =>
      rw [List.filter_cons, List.map_cons, List.filter_cons]
      cases hp : p a.1 with
      | true => simp [ih]
      | false => simp [ih]

theorem dense_removeState {m : Map} {live : List String} (hd : dense m live) (inter : String) :
    dense (removeState m inter) (live.filter (fun s => s != inter)) := by
  constructor
  · have hr : rowKeys (removeState m inter) = (rowKeys m).filter (fun s => s != inter) := by
      unfold removeState rowKeys
      rw [List.map_map]
      have hcomp : ((fun kv : String × Row => kv.1)
          ∘ fun kv : String × Row => (kv.1, kv.2.filter (fun cv => cv.1 != inter)))
          = fun kv : String × Row => kv.1 := rfl
      rw [hcomp]
      exact map_fst_filter_key m (fun s => s != inter)
    rw [hr, hd.1]
  · intro kv2 hm2
    unfold removeState at hm2
    obtain ⟨kv3, hm3, hf3⟩ := List.mem_map.mp hm2
    rw [List.mem_filter] at hm3
    obtain ⟨hm3a, _⟩ := hm3
    rw [← hf3]
    show colKeys (kv3.2.filter (fun cv => cv.1 != inter)) = live.filter (fun s => s != inter)
    unfold colKeys
    rw [map_fst_filter_key kv3.2 (fun s => s != inter)]
    have : kv3.2.map (fun cv => cv.1) = live := hd.2 kv3 hm3a
    rw [this]

theorem pair_step_exists (aliased : Bool) (inter i j : String) (st : Map × Map) :
    ∃ v, (pair_step aliased inter i j st).2 = write st.2 i j v
      ∧ (pair_step aliased inter i j st).1 = (if aliased then write st.2 i j v else st.1) :=
  ⟨_, rfl, rfl⟩

theorem elim_state_shape (aliased : Bool) (st : Map × Map) (inter : String) :
    (elim_state aliased st inter).1 = (elim_state aliased st inter).2 ∧
    (elim_state aliased st inter).2 = removeState
      ((get_predecessors st.1 inter).foldl (fun acc i =>
        (get_successors st.1 inter).foldl (fun acc2 j => pair_step aliased inter i j acc2) acc)
        st).2 inter :=
  ⟨rfl, rfl⟩

theorem succs_fold_dense {live : List String} (aliased : Bool) (inter i : String)
    (succs : List String) (hsub : ∀ j ∈ succs, j ∈ live) :
    ∀ st : Map × Map, dense st.2 live →
      dense ((succs.foldl (fun acc2 j => pair_step aliased inter i j acc2) st)).2 live := by
  induction succs with
  | nil => intro st hd; exact hd
  | cons j js ih =>
      intro st hd
      rw [List.foldl_cons]
      apply ih (fun j2 h2 => hsub j2 (by simp [h2]))
      obtain ⟨v, h2, _⟩ := pair_step_exists aliased inter i j st
      rw [h2]
      exact dense_write hd i (hsub j (by simp)) v

theorem preds_fold_dense {live : List String} (aliased : Bool) (inter : String)
    (preds succs : List String) (hsub : ∀ j ∈ succs, j ∈ live) :
    ∀ st : Map × Map, dense st.2 live →
      dense ((preds.foldl (fun acc i =>
        succs.foldl (fun acc2 j => pair_step aliased inter i j acc2) acc) st)).2 live := by
  induction preds with
  | nil => intro st hd; exact hd
  | cons i is ih =>
      intro st hd
      rw [List.foldl_cons]
      exact ih _ (succs_fold_dense aliased inter i succs hsub st hd)

theorem succs_subset_live {st : Map × Map} {live : List String} (inter : String)
    (hsd : st.1 = st.2) (hd : dense st.2 live) :
    ∀ j ∈ get_successors st.1 inter, j ∈ live := by
  intro j hj
  unfold get_successors at hj
  obtain ⟨cv, hcvm, hcveq⟩ := List.mem_map.mp hj
  rw [List.mem_filter] at hcvm
  obtain ⟨hcvmem, _⟩ := hcvm
  cases hlk : lookupRow st.1 inter with
  | none => rw [hlk] at hcvmem; cases hcvmem
  | some row =>
      rw [hlk] at hcvmem
      rw [hsd] at hlk
      obtain ⟨kv, hkvm, _, hk2⟩ := mem_of_lookupRow hlk
      have hck : colKeys row = live := by rw [← hk2]; exact hd.2 kv hkvm
      rw [← hcveq, ← hck]
      exact List.mem_map.mpr ⟨cv, hcvmem, rfl⟩

theorem elim_fold_dense (inters : List String) :
    ∀ (stb : (Map × Map) × Bool) (live : List String),
      stb.1.1 = stb.1.2 → dense stb.1.2 live →
      (inters.foldl elim_step stb).1.1 = (inters.foldl elim_step stb).1.2 ∧
      dense ((inters.foldl elim_step stb).1.2)
        (live.filter (fun s => !(inters.contains s))) := by
  induction inters with
  | nil =>
      intro stb live h1 h2
      refine ⟨h1, ?_⟩
      have : live.filter (fun s => !(List.contains [] s)) = live := by
        apply List.filter_eq_self.mpr
        intro s _
        rfl
      rw [this]
      exact h2
  | cons inter rest ih =>
      intro stb live h1 h2
      rw [List.foldl_cons]
      have hshape := elim_state_shape stb.2 stb.1 inter
      have hdpairs : dense (((get_predecessors stb.1.1 inter).foldl (fun acc i =>
          (get_successors stb.1.1 inter).foldl
            (fun acc2 j => pair_step stb.2 inter i j acc2) acc) stb.1)).2 live :=
        preds_fold_dense stb.2 inter _ _ (succs_subset_live inter h1 h2) stb.1 h2
      have hdstep : dense (elim_state stb.2 stb.1 inter).2
          (live.filter (fun s => s != inter)) := by
        rw [hshape.2]
        exact dense_removeState hdpairs inter
      have hstep : (List.foldl elim_step stb (inter :: rest)).1.1
            = (List.foldl elim_step stb (inter :: rest)).1.2 ∧ _ :=
        ih (elim_step stb inter) (live.filter (fun s => s != inter)) hshape.1 hdstep
      refine ⟨hstep.1, ?_⟩
      have hfilter : (live.filter (fun s => s != inter)).filter (fun s => !(rest.contains s))
          = live.filter (fun s => !((inter :: rest).contains s)) := by
        rw [List.filter_filter]
        apply List.filter_congr
        intro s _
        by_cases hsi : s = inter
        · simp [hsi]
        · simp [hsi, fun h : inter = s => hsi h.symm]
      have h2step := hstep.2
      rw [hfilter] at h2step
      exact h2step

/-- C9: over a well-formed table the adjacency mapping is built dense over
all declared states, each elimination step removes the eliminated state's
entire row and entire column in one step, and therefore at every prefix of
the elimination order the key set of the mapping equals the Cartesian
product of the currently-live state list with itself. -/
theorem C9_dense_invariant (states : List String) (init_state : String)
    (final_states : List String) (tf : RawTable) (ds0 : Map) (pfx sfx : List String)
    (hdst : ∀ kv ∈ tf, ∀ cv ∈ kv.2, cv.1 ∈ states)
    (hm : set_transition_dict states tf = Except.ok ds0)
    (hsplit : get_intermediate_states states init_state final_states = pfx ++ sfx) :
    dense ds0 states ∧
    dense ((pfx.foldl elim_step ((ds0, ds0), true)).1.2)
      (states.filter (fun s => !(pfx.contains s))) ∧
    elim_run (get_intermediate_states states init_state final_states) ds0
      = ((sfx.foldl elim_step (pfx.foldl elim_step ((ds0, ds0), true))).1).2 := by
  have hd0 : dense ds0 states := dense_std states tf hdst hm
  refine ⟨hd0, (elim_fold_dense pfx ((ds0, ds0), true) states rfl hd0).2, ?_⟩
  rw [hsplit]
  unfold elim_run
  rw [List.foldl_append]

/-- Closed instance of `C9_dense_invariant`: after eliminating "a" the
mapping is dense over the remaining states ["b", "S", "F"]. -/
theorem C9_dense_invariant_witness :
    dense (((["a"] : List String).foldl elim_step
        (([("a", [("a", Exp.Base "_"), ("b", Exp.Base "y"), ("S", Exp.Base "_"), ("F", Exp.Base "_")]),
          ("b", [("a", Exp.Base "_"), ("b", Exp.Base "_"), ("S", Exp.Base "_"), ("F", Exp.Base "z")]),
          ("S", [("a", Exp.Base "x"), ("b", Exp.Base "_"), ("S", Exp.Base "_"), ("F", Exp.Base "_")]),
          ("F", [("a", Exp.Base "_"), ("b", Exp.Base "_"), ("S", Exp.Base "_"), ("F", Exp.Base "_")])],
         [("a", [("a", Exp.Base "_"), ("b", Exp.Base "y"), ("S", Exp.Base "_"), ("F", Exp.Base "_")]),
          ("b", [("a", Exp.Base "_"), ("b", Exp.Base "_"), ("S", Exp.Base "_"), ("F", Exp.Base "z")]),
          ("S", [("a", Exp.Base "x"), ("b", Exp.Base "_"), ("S", Exp.Base "_"), ("F", Exp.Base "_")]),
          ("F", [("a", Exp.Base "_"), ("b", Exp.Base "_"), ("S", Exp.Base "_"), ("F", Exp.Base "_")])]),
         true)).1.2)
      ((["a", "b", "S", "F"] : List String).filter (fun s => !((["a"] : List String).contains s))) := by
  have h := C9_dense_invariant ["a", "b", "S", "F"] "S" ["F"]
    [("S", [("a", "x")]), ("a", [("b", "y")]), ("b", [("F", "z")])]
    [("a", [("a", Exp.Base "_"), ("b", Exp.Base "y"), ("S", Exp.Base "_"), ("F", Exp.Base "_")]),
     ("b", [("a", Exp.Base "_"), ("b", Exp.Base "_"), ("S", Exp.Base "_"), ("F", Exp.Base "z")]),
     ("S", [("a", Exp.Base "x"), ("b", Exp.Base "_"), ("S", Exp.Base "_"), ("F", Exp.Base "_")]),
     ("F", [("a", Exp.Base "_"), ("b", Exp.Base "_"), ("S", Exp.Base "_"), ("F", Exp.Base "_")])]
    ["a"] ["b"]
    (by intro kv hkv; simp at hkv
        rcases hkv with rfl | rfl | rfl
        all_goals (intro cv hcv; simp at hcv; subst hcv; decide))
    rfl rfl
  exact h.2.1

theorem covered_init (ds0 : Map) :
    ∀ kv ∈ ds0, ∀ cv ∈ kv.2, cv.2.name ≠ "_" → Reach ds0 kv.1 cv.1 := by
  intro kv hkv cv hcv hname
  apply Reach.edge
  unfold hasEdge
  rw [List.any_eq_true]
  refine ⟨kv, hkv, ?_⟩
  rw [Bool.and_eq_true]
  refine ⟨by simp, ?_⟩
  rw [List.any_eq_true]
  refine ⟨cv, hcv, ?_⟩
  rw [Bool.and_eq_true]
  exact ⟨by simp, by simp [hname]⟩

theorem covered_write {ds0 m : Map}
    (H : ∀ kv ∈ m, ∀ cv ∈ kv.2, cv.2.name ≠ "_" → Reach ds0 kv.1 cv.1)
    {r c : String} (hreach : Reach ds0 r c) (v : Exp) :
    ∀ kv ∈ write m r c v, ∀ cv ∈ kv.2, cv.2.name ≠ "_" → Reach ds0 kv.1 cv.1 := by
  unfold write
  cases hrow : lookupRow m r with
  | none => exact H
  | some row =>
      obtain ⟨rkv, hrkvm, hrk1, hrk2⟩ := mem_of_lookupRow hrow
      intro kv2 hkv2 cv2 hcv2 hname2
      unfold setRow at hkv2
      obtain ⟨kv3, hkv3, hf3⟩ := List.mem_map.mp hkv2
      by_cases h3 : (kv3.1 == r) = true
      · rw [if_pos h3] at hf3
        have hk31 : kv3.1 = r := by simpa using h3
        have hkv2eq : kv2 = (kv3.1, setCell row c v) := hf3.symm
        have hcv2mem : cv2 ∈ setCell row c v := by
          rw [hkv2eq] at hcv2
          exact hcv2
        have hgoal1 : kv2.1 = r := by rw [hkv2eq]; exact hk31
        rw [hgoal1]
        unfold setCell at hcv2mem
        by_cases hck : containsKey row c = true
        · rw [if_pos hck] at hcv2mem
          obtain ⟨cv3, hcv3, hf4⟩ := List.mem_map.mp hcv2mem
          by_cases h4 : (cv3.1 == c) = true
          · rw [if_pos h4] at hf4
            have : cv2.1 = c := by rw [← hf4]; simpa using h4
            rw [this]
            exact hreach
          · rw [if_neg h4] at hf4
            rw [← hf4]
            have := H rkv hrkvm cv3 (by rw [hrk2]; exact hcv3)
              (by rw [hf4]; exact hname2)
            rw [hrk1] at this
            exact this
        · rw [if_neg hck] at hcv2mem
          rcases List.mem_append.mp hcv2mem with hin | hin
          · have := H rkv hrkvm cv2 (by rw [hrk2]; exact hin) hname2
            rw [hrk1] at this
            exact this
          · have : cv2 = (c, v) := by simpa using hin
            rw [this]
            exact hreach
      · rw [if_neg h3] at hf3
        rw [← hf3]
        rw [← hf3] at hcv2
        exact H kv3 hkv3 cv2 hcv2 hname2

theorem covered_removeState {ds0 m : Map}
    (H : ∀ kv ∈ m, ∀ cv ∈ kv.2, cv.2.name ≠ "_" → Reach ds0 kv.1 cv.1) (inter : String) :
    ∀ kv ∈ removeState m inter, ∀ cv ∈ kv.2, cv.2.name ≠ "_" → Reach ds0 kv.1 cv.1 := by
  intro kv2 hkv2 cv2 hcv2 hname2
  unfold removeState at hkv2
  obtain ⟨kv3, hkv3, hf3⟩ := List.mem_map.mp hkv2
  rw [List.mem_filter] at hkv3
  obtain ⟨hkv3m, _⟩ := hkv3
  have hk : kv2.1 = kv3.1 := by rw [← hf3]
  have hcv3 : cv2 ∈ kv3.2 := by
    rw [← hf3] at hcv2
    exact (List.mem_filter.mp hcv2).1
  rw [hk]
  exact H kv3 hkv3m cv2 hcv3 hname2

theorem preds_reach {ds0 m : Map}
    (H : ∀ kv ∈ m, ∀ cv ∈ kv.2, cv.2.name ≠ "_" → Reach ds0 kv.1 cv.1)
    {inter i : String} (hi : i ∈ get_predecessors m inter) : Reach ds0 i inter := by
  unfold get_predecessors at hi
  obtain ⟨kv, hkvm, hkveq⟩ := List.mem_map.mp hi
  rw [List.mem_filter] at hkvm
  obtain ⟨hkvmem, hcond⟩ := hkvm
  rw [Bool.and_eq_true, Bool.and_eq_true] at hcond
  obtain ⟨⟨hck, hname⟩, _⟩ := hcond
  have hsome : (kv.2.find? (fun cv => cv.1 == inter)).isSome := by
    rw [List.find?_isSome]
    unfold containsKey at hck
    rw [List.any_eq_true] at hck
    exact hck
  obtain ⟨cv, hf⟩ := Option.isSome_iff_exists.mp hsome
  have hcvm : cv ∈ kv.2 := List.mem_of_find?_eq_some hf
  have hcv1 : cv.1 = inter := by
    have := List.find?_some hf
    simpa using this
  have hval : (getInRow kv.2 inter).getD (Exp.Base "_") = cv.2 := by
    unfold getInRow
    rw [hf]
    rfl
  have hnm : cv.2.name ≠ "_" := by
    rw [hval] at hname
    intro h
    rw [h] at hname
    simp at hname
  have := H kv hkvmem cv hcvm hnm
  rw [hkveq, hcv1] at this
  exact this

theorem succs_reach {ds0 m : Map}
    (H : ∀ kv ∈ m, ∀ cv ∈ kv.2, cv.2.name ≠ "_" → Reach ds0 kv.1 cv.1)
    {inter j : String} (hj : j ∈ get_successors m inter) : Reach ds0 inter j := by
  unfold get_successors at hj
  obtain ⟨cv, hcvm, hcveq⟩ := List.mem_map.mp hj
  rw [List.mem_filter] at hcvm
  obtain ⟨hcvmem, hcond⟩ := hcvm
  rw [Bool.and_eq_true] at hcond
  obtain ⟨hname, _⟩ := hcond
  cases hlk : lookupRow m inter with
  | none => rw [hlk] at hcvmem; cases hcvmem
  | some row =>
      rw [hlk] at hcvmem
      obtain ⟨kv, hkvm, hk1, hk2⟩ := mem_of_lookupRow hlk
      have hnm : cv.2.name ≠ "_" := by
        intro h
        rw [h] at hname
        simp at hname
      have := H kv hkvm cv (by rw [hk2]; exact hcvmem) hnm
      rw [hk1, hcveq] at this
      exact this

theorem succs_fold_covered {ds0 : Map} (aliased : Bool) (inter i : String)
    (succs : List String) (hri : Reach ds0 i inter)
    (hsr : ∀ j ∈ succs, Reach ds0 inter j) :
    ∀ st : Map × Map,
      (∀ kv ∈ st.2, ∀ cv ∈ kv.2, cv.2.name ≠ "_" → Reach ds0 kv.1 cv.1) →
      ∀ kv ∈ ((succs.foldl (fun acc2 j => pair_step aliased inter i j acc2) st)).2,
        ∀ cv ∈ kv.2, cv.2.name ≠ "_" → Reach ds0 kv.1 cv.1 := by
  induction succs with
  | nil => intro st H; exact H
  | cons j js ih =>
      intro st H
      rw [List.foldl_cons]
      apply ih (fun j2 h2 => hsr j2 (by simp [h2]))
      obtain ⟨v, h2, _⟩ := pair_step_exists aliased inter i j st
      rw [h2]
      exact covered_write H (Reach.trans hri (hsr j (by simp))) v

theorem preds_fold_covered {ds0 : Map} (aliased : Bool) (inter : String)
    (preds succs : List String)
    (hpr : ∀ i ∈ preds, Reach ds0 i inter)
    (hsr : ∀ j ∈ succs, Reach ds0 inter j) :
    ∀ st : Map × Map,
      (∀ kv ∈ st.2, ∀ cv ∈ kv.2, cv.2.name ≠ "_" → Reach ds0 kv.1 cv.1) →
      ∀ kv ∈ ((preds.foldl (fun acc i =>
          succs.foldl (fun acc2 j => pair_step aliased inter i j acc2) acc) st)).2,
        ∀ cv ∈ kv.2, cv.2.name ≠ "_" → Reach ds0 kv.1 cv.1 := by
  induction preds with
  | nil => intro st H; exact H
  | cons i is ih =>
      intro st H
      rw [List.foldl_cons]
      exact ih (fun i2 h2 => hpr i2 (by simp [h2])) _
        (succs_fold_covered aliased inter i succs (hpr i (by simp)) hsr st H)

theorem elim_state_covered {ds0 : Map} (aliased : Bool) (st : Map × Map) (inter : String)
    (hsd : st.1 = st.2)
    (H : ∀ kv ∈ st.2, ∀ cv ∈ kv.2, cv.2.name ≠ "_" → Reach ds0 kv.1 cv.1) :
    ∀ kv ∈ (elim_state aliased st inter).2, ∀ cv ∈ kv.2,
      cv.2.name ≠ "_" → Reach ds0 kv.1 cv.1 := by
  have H1 : ∀ kv ∈ st.1, ∀ cv ∈ kv.2, cv.2.name ≠ "_" → Reach ds0 kv.1 cv.1 := by
    rw [hsd]
    exact H
  have hshape := elim_state_shape aliased st inter
  rw [hshape.2]
  apply covered_removeState
  exact preds_fold_covered aliased inter _ _
    (fun i hi => preds_reach H1 hi) (fun j hj => succs_reach H1 hj) st H

theorem elim_fold_covered (inters : List String) {ds0 : Map} :
    ∀ stb : (Map × Map) × Bool,
      stb.1.1 = stb.1.2 →
      (∀ kv ∈ stb.1.2, ∀ cv ∈ kv.2, cv.2.name ≠ "_" → Reach ds0 kv.1 cv.1) →
      (inters.foldl elim_step stb).1.1 = (inters.foldl elim_step stb).1.2 ∧
      ∀ kv ∈ (inters.foldl elim_step stb).1.2, ∀ cv ∈ kv.2,
        cv.2.name ≠ "_" → Reach ds0 kv.1 cv.1 := by
  induction inters with
  | nil => intro stb h1 h2; exact ⟨h1, h2⟩
  | cons inter rest ih =>
      intro stb h1 h2
      rw [List.foldl_cons]
      exact ih (elim_step stb inter) (elim_state_shape stb.2 stb.1 inter).1
        (elim_state_covered stb.2 stb.1 inter h1 h2)

theorem getCellD_name_ne_mem {m : Map} {r c : String}
    (h : (getCellD m r c).name ≠ "_") :
    ∃ kv, kv ∈ m ∧ kv.1 = r ∧ ∃ cv, cv ∈ kv.2 ∧ cv.1 = c ∧ cv.2 = getCellD m r c := by
  cases hlk : lookupRow m r with
  | none =>
      exfalso
      apply h
      unfold getCellD
      rw [hlk]
      rfl
  | some row =>
      have hcell : getCellD m r c = (getInRow row c).getD (Exp.Base "_") := by
        unfold getCellD
        rw [hlk]
        rfl
      obtain ⟨kv, hkvm, hk1, hk2⟩ := mem_of_lookupRow hlk
      cases hf : row.find? (fun cv => cv.1 == c) with
      | none =>
          exfalso
          apply h
          rw [hcell]
          unfold getInRow
          rw [hf]
          rfl
      | some cv =>
          refine ⟨kv, hkvm, hk1, cv, ?_, ?_, ?_⟩
          · rw [hk2]
            exact List.mem_of_find?_eq_some hf
          · have := List.find?_some hf
            simpa using this
          · rw [hcell]
            unfold getInRow
            rw [hf]
            rfl

/-- C8: whenever the accept state is not reachable from the start state in
the adjacency mapping the engine is given, the elimination engine returns
the NoEdge sentinel itself, as an ordinary value of `toregex` (which is a
total function), never as an error. -/
theorem C8_no_path_noedge (states : List String) (init_state : String)
    (final_states : List String) (ds0 : Map)
    (hnr : ¬ Reach ds0 init_state (final_states.headD "")) :
    toregex states init_state final_states ds0 = Exp.Base "_" := by
  have hfold := elim_fold_covered (get_intermediate_states states init_state final_states)
    ((ds0, ds0), true) rfl (covered_init ds0)
  by_contra hne
  have hname2 : (getCellD (((get_intermediate_states states init_state
        final_states).foldl elim_step ((ds0, ds0), true)).1.2)
      init_state (final_states.headD "")).name ≠ "_" :=
    fun h => hne ((name_noedge_iff _).mp h)
  obtain ⟨kv, hkvm, hk1, cv, hcvm, hc1, hlast⟩ := getCellD_name_ne_mem hname2
  apply hnr
  rw [← hk1, ← hc1]
  exact hfold.2 kv hkvm cv hcvm (by rw [hlast]; exact hname2)

theorem noedge_no_reach {m : Map} (h : ∀ a b, hasEdge m a b = false) :
    ∀ a b, ¬ Reach m a b := by
  intro a b hr
  induction hr with
  | edge he => rw [h] at he; cases he
  | trans _ _ ih1 ih2 => exact ih1

/-- Closed instance of `C8_no_path_noedge`: the empty adjacency mapping has
no edges at all, so the result is the sentinel. -/
theorem C8_no_path_noedge_witness :
    toregex ["START", "FINAL"] "START" ["FINAL"] [] = Exp.Base "_" :=
  C8_no_path_noedge ["START", "FINAL"] "START" ["FINAL"] []
    (@noedge_no_reach [] (fun _ _ => rfl) "START" "FINAL")
